import Mathlib

set_option maxHeartbeats 1000000

/-! # Shallow embedding of the biblatex-to-md metadata pipeline

Definitions are translated from the TypeScript sources: the string sanitizer
and author normalizer of src/unnamed/part_002, the inline author-tag,
keyword-tag and filename logic of the first variant in src/main.ts, the
template populator shared by the variants, and the import orchestrator of
src/main.ts. Strings are modelled as lists of characters; the JavaScript
regular-expression operations are modelled by explicit recursive functions. -/

/-- Whitespace characters as matched by the whitespace character class of the
regular expressions in the source (ASCII portion). -/
def isWs (c : Char) : Bool :=
  c = ' ' || c = '\t' || c = '\n' || c = '\r' || c = '\x0b' || c = '\x0c'

/-- The filesystem-unsafe characters removed or replaced by the source. -/
def isInvalidFs (c : Char) : Bool :=
  c = '/' || c = '\\' || c = ':' || c = '*' || c = '?' || c = '"' || c = '<' || c = '>' || c = '|'

/-- Collapse every maximal run of characters satisfying p into the single
character r, mirroring a global regex replace of a one-or-more class. -/
def collapseRuns (p : Char → Bool) (r : Char) : List Char → List Char
  | [] => []
  | [c] => if p c then [r] else [c]
  | c :: d :: cs =>
    if p c && p d then collapseRuns p r (d :: cs)
    else (if p c then r else c) :: collapseRuns p r (d :: cs)

/-- JavaScript String.trim on a character list: drop leading and trailing
whitespace. -/
def trimChars (l : List Char) : List Char :=
  ((l.dropWhile isWs).reverse.dropWhile isWs).reverse

/-- Replace a period with an underscore, used pointwise by sanitizeString. -/
def dotRepl (c : Char) : Char := if c = '.' then '_' else c

/-- A parenthesis character, removed by sanitizeString. -/
def isParen (c : Char) : Bool := c = '(' || c = ')'

/-- The unconditional first stage of sanitizeString from src/unnamed/part_002:
remove the invalid characters, replace periods with underscores, remove
parentheses, then trim. -/
def sanitizeBase (l : List Char) : List Char :=
  trimChars (((l.filter (fun c => !(isInvalidFs c))).map dotRepl).filter
    (fun c => !(isParen c)))

/-- Core of sanitizeString from src/unnamed/part_002 on character lists:
after the base stage, unless preserveSpaces, replace whitespace runs with a
single underscore (for tags) or space; for tags, collapse underscore runs. -/
def sanitizeCore (preserveSpaces forTags : Bool) (l : List Char) : List Char :=
  let s2 := if preserveSpaces then sanitizeBase l
    else collapseRuns isWs (if forTags then '_' else ' ') (sanitizeBase l)
  if forTags then collapseRuns (fun c => c = '_') '_' s2 else s2

/-- sanitizeString of src/unnamed/part_002. -/
def sanitizeString (input : String) (preserveSpaces forTags : Bool) : String :=
  ⟨sanitizeCore preserveSpaces forTags input.data⟩

/-- No whitespace at either edge of a character list. -/
def noWsEdge (l : List Char) : Prop :=
  (∀ c, l.head? = some c → isWs c = false) ∧ (∀ c, l.getLast? = some c → isWs c = false)

/-- A character that the base sanitizing stage leaves unchanged. -/
def goodChar (c : Char) : Prop :=
  isInvalidFs c = false ∧ c ≠ '.' ∧ isParen c = false

/-- A structured author object produced by the external parser. -/
structure AuthorObj where
  firstName : Option String
  lastName : Option String
deriving DecidableEq

/-- A bibliographic field value: a plain string, a list of structured author
objects, or a single structured author object. -/
inductive FieldVal
  | vstr (s : String)
  | vlist (l : List AuthorObj)
  | vobj (a : AuthorObj)
deriving DecidableEq

/-- A parsed bibliography entry as handed over by the external parser. -/
structure Entry where
  key : String
  etype : String
  fields : List (String × FieldVal)
deriving DecidableEq

def getFieldVal (fields : List (String × FieldVal)) (k : String) : Option FieldVal :=
  List.lookup k fields

/-- Read a scalar field; only plain string values are modelled for scalar
fields (the source would push non-string objects through string operations). -/
def getStrField (fields : List (String × FieldVal)) (k : String) : Option String :=
  match getFieldVal fields k with
  | some (.vstr s) => some s
  | _ => none

/-- The three raw author shapes, plus absence. -/
inductive RawAuthor
  | absent
  | rstr (s : String)
  | rlist (l : List AuthorObj)
  | robj (a : AuthorObj)
deriving DecidableEq

/-- JavaScript (x or d) on an optional string: absent and the empty string are
falsy. -/
def jsOr (o : Option String) (d : String) : String :=
  match o with
  | none => d
  | some s => if s = "" then d else s

/-- The expression (fields.author or "Unknown Author") of the source. -/
def authorsRawOf (fields : List (String × FieldVal)) : RawAuthor :=
  match getFieldVal fields "author" with
  | none => .rstr "Unknown Author"
  | some (.vstr s) => if s = "" then .rstr "Unknown Author" else .rstr s
  | some (.vlist l) => .rlist l
  | some (.vobj a) => .robj a

/-- Remove brace characters, mirroring the global replace of the brace class. -/
def stripBraces (l : List Char) : List Char :=
  l.filter (fun c => !(c = '{' || c = '}'))

/-- Split on whitespace runs, mirroring a split on a one-or-more whitespace
regex. -/
def splitWsRuns : List Char → List (List Char)
  | [] => [[]]
  | [c] => if isWs c then [[], []] else [[c]]
  | c :: d :: cs =>
    if isWs c then
      (if isWs d then splitWsRuns (d :: cs) else [] :: splitWsRuns (d :: cs))
    else
      match splitWsRuns (d :: cs) with
      | piece :: rest => (c :: piece) :: rest
      | [] => [[c]]

/-- Try to match the author separator regex (whitespace, the word and in any
case, whitespace) at the head of the list; on success return what follows. -/
def trySepAnd (cs : List Char) : Option (List Char) :=
  let w1 := cs.takeWhile isWs
  let r1 := cs.dropWhile isWs
  if w1.isEmpty then none
  else
    match r1 with
    | a :: n :: d :: r2 =>
      if a.toLower = 'a' && n.toLower = 'n' && d.toLower = 'd' then
        let w2 := r2.takeWhile isWs
        if w2.isEmpty then none else some (r2.dropWhile isWs)
      else none
    | _ => none

/-- Fuel-driven scan splitting a list at every separator match; the fuel is
the length of the list, which bounds the number of scan steps. -/
def splitAndGo : Nat → List Char → List Char → List (List Char)
  | 0, acc, l => [acc.reverse ++ l]
  | fuel + 1, acc, l =>
    match l with
    | [] => [acc.reverse]
    | c :: cs =>
      match trySepAnd (c :: cs) with
      | some rest => acc.reverse :: splitAndGo fuel [] rest
      | none => splitAndGo fuel (c :: acc) cs

/-- JavaScript split on the case-insensitive whitespace-and-whitespace regex. -/
def splitAndCI (l : List Char) : List (List Char) :=
  splitAndGo l.length [] l

/-- buildAuthorTag of src/main.ts: from one author segment build a tag of the
last name followed by the first initial. -/
def buildAuthorTag (authorStr : List Char) : List Char :=
  let trimmed := trimChars authorStr
  if trimmed = [] ∨ trimmed.map Char.toLower = "unknown author".data then
    "UnknownAuthor".data
  else if ',' ∈ trimmed then
    let pieces := (List.splitOn ',' trimmed).take 2
    let last := trimChars (pieces.headD [])
    let firstRest := trimChars ((pieces.drop 1).headD [])
    last ++ (match firstRest with | [] => [] | c :: _ => [c])
  else
    let parts := splitWsRuns trimmed
    let last := (parts.getLast?).getD []
    let first := (parts.dropLast.head?).getD []
    last ++ (match first with | [] => [] | c :: _ => [c])

/-- Keep only the first occurrence of each element, as the spread of a Set. -/
def dedupFirstAux : List String → List String → List String
  | _, [] => []
  | seen, x :: xs =>
    if x ∈ seen then dedupFirstAux seen xs else x :: dedupFirstAux (x :: seen) xs

def dedupFirst (l : List String) : List String := dedupFirstAux [] l

/-- Remove one leading hash character, as the replace of an anchored hash. -/
def dropHashStr (s : String) : String :=
  match s.data with
  | '#' :: r => r.asString
  | _ => s

/-- processAuthors of src/unnamed/part_002. The result is an optional pair of
the author tag list and the filename author; none models the TypeError the
source raises when indexing the first tag of an empty structured list. A
single structured object matches neither the string branch nor the array
branch and falls through with the empty tag list and empty filename author. -/
def processAuthors (authorsRaw : RawAuthor) : Option (List String × String) :=
  match authorsRaw with
  | .absent => some (["#UnknownAuthor"], "UnknownAuthor")
  | .rstr s =>
    if s = "" ∨ s = "Unknown Author" then some (["#UnknownAuthor"], "UnknownAuthor")
    else
      let cleaned := stripBraces s.data
      let splits := splitAndCI cleaned
      let tags := splits.map (fun a =>
        ('#' :: buildAuthorTag (sanitizeCore false false (trimChars a))).asString)
      let fna := if splits.length > 1
        then ((List.splitOn ',' cleaned).headD []).asString ++ " et al"
        else ((List.splitOn ',' cleaned).headD []).asString
      some (dedupFirst tags, fna)
  | .rlist l =>
    let tags := l.map (fun a =>
      let first := jsOr a.firstName ""
      let last := jsOr a.lastName "Unknown"
      ('#' :: sanitizeCore false false
        (last.data ++ (match first.data with | [] => [] | c :: _ => [c]))).asString)
    match tags with
    | [] => none
    | t0 :: _ =>
      let fna := if tags.length > 1
        then dropHashStr t0 ++ "_et_al"
        else dropHashStr t0
      some (dedupFirst tags, fna)
  | .robj _ => some (dedupFirst [], "")

/-- The combined (first space last) trimmed string built for structured author
objects by the inline author-tag logic of src/main.ts. -/
def buildCombined (a : AuthorObj) : List Char :=
  trimChars ((jsOr a.firstName "").data ++ ' ' :: (jsOr a.lastName "").data)

/-- The inline author-tag construction of importBibTeX in src/main.ts (first
variant): one hash-prefixed tag per author, built with buildAuthorTag. The
absent case mirrors the unreachable fallback branch of the source. -/
def authorTagsOf (fields : List (String × FieldVal)) : List String :=
  match authorsRawOf fields with
  | .rstr s =>
    (splitAndCI (stripBraces s.data)).map
      (fun seg => ('#' :: buildAuthorTag (trimChars seg)).asString)
  | .rlist l => l.map (fun a => ('#' :: buildAuthorTag (buildCombined a)).asString)
  | .robj a => [('#' :: buildAuthorTag (buildCombined a)).asString]
  | .absent => ["#UnknownAuthor"]

/-- fields.title or "Untitled". -/
def titleOf (fields : List (String × FieldVal)) : String :=
  match getStrField fields "title" with
  | some t => if t = "" then "Untitled" else t
  | none => "Untitled"

/-- The year expression of importBibTeX: the text of fields.date before the
first dash, else fields.year, else the unknown-year sentinel. -/
def yearOf (fields : List (String × FieldVal)) : String :=
  let fromDate : String := match getStrField fields "date" with
    | some d => ((List.splitOn '-' d.data).headD []).asString
    | none => ""
  if fromDate ≠ "" then fromDate
  else
    match getStrField fields "year" with
    | some y => if y = "" then "Unknown Year" else y
    | none => "Unknown Year"

/-- Replace a filesystem-unsafe character with an underscore. -/
def invalidToUnd (c : Char) : Char := if isInvalidFs c then '_' else c

/-- The sanitized title used in the filename by src/main.ts (first variant):
replace unsafe characters with underscores, then keep the first 50
characters. -/
def sanitizedTitleOf (fields : List (String × FieldVal)) : List Char :=
  ((titleOf fields).data.map invalidToUnd).take 50

/-- The first author tag with its hash removed, or the unknown-author
fallback, as used for the filename in src/main.ts (first variant). -/
def firstAuthorTagOf (fields : List (String × FieldVal)) : String :=
  match (authorTagsOf fields).head? with
  | some t => if dropHashStr t = "" then "UnknownAuthor" else dropHashStr t
  | none => "UnknownAuthor"

/-- The derived note filename of src/main.ts (first variant), lines 192-195. -/
def fileNameFor (e : Entry) : String :=
  "LNL " ++ firstAuthorTagOf e.fields ++ " " ++ yearOf e.fields ++ " "
    ++ (sanitizedTitleOf e.fields).asString ++ ".md"

/-- The keyword-tag construction of importBibTeX in src/main.ts (first
variant), lines 129-139: split the keywords string on commas, trim each
piece, replace whitespace runs with underscores and prefix a hash; an
empty-after-trim keywords string yields no tags. -/
def keywordTags (kw : String) : List String :=
  if trimChars kw.data = [] then []
  else
    ((List.splitOn ',' kw.data).map (fun k => trimChars k)).map
      (fun k => ('#' :: collapseRuns isWs '_' k).asString)

/-- Lazily grab the placeholder body after an opening double brace: stop at
the first closing double brace; fail on a line terminator (the regex dot does
not match those) or at the end of input. -/
def grabTok : List Char → Option (List Char × List Char)
  | [] => none
  | c :: rest =>
    if c = '}' ∧ rest.head? = some '}' then some ([], rest.tail)
    else if c = '\n' ∨ c = '\r' then none
    else (grabTok rest).map (fun p => (c :: p.1, p.2))

/-- The replacement text for a grabbed placeholder body: the mapped value of
the trimmed identifier when present, else the original token text. -/
def substFor (repl : List (String × String)) (key : List Char) : List Char :=
  match List.lookup (trimChars key).asString repl with
  | some v => v.data
  | none => '{' :: '{' :: (key ++ '}' :: '}' :: [])

/-- The template scan of importBibTeX (the global regex replace over
double-brace tokens with a function replacer): fuel-driven left-to-right
scan; the fuel is the input length, which bounds the number of scan steps. -/
def popAuxGo (repl : List (String × String)) : Nat → List Char → List Char
  | 0, l => l
  | fuel + 1, l =>
    match l with
    | [] => []
    | c :: rest =>
      if c = '{' then
        match rest with
        | [] => [c]
        | d :: rest2 =>
          if d = '{' then
            match grabTok rest2 with
            | some kr => substFor repl kr.1 ++ popAuxGo repl fuel kr.2
            | none => c :: popAuxGo repl fuel rest
          else c :: popAuxGo repl fuel rest
      else c :: popAuxGo repl fuel rest

def popAux (repl : List (String × String)) (l : List Char) : List Char :=
  popAuxGo repl l.length l

/-- populate: the placeholder substitution of importBibTeX in src/main.ts. -/
def populate (template : String) (repl : List (String × String)) : String :=
  (popAux repl template.data).asString

/-- Whether a double-brace token occurs anywhere in the list, fuel-driven. -/
def hasTokGo : Nat → List Char → Bool
  | 0, _ => false
  | fuel + 1, l =>
    match l with
    | [] => false
    | c :: rest =>
      if c = '{' then
        match rest with
        | [] => false
        | d :: rest2 =>
          if d = '{' then
            match grabTok rest2 with
            | some _ => true
            | none => hasTokGo fuel rest
          else hasTokGo fuel rest
      else hasTokGo fuel rest

def hasTok (l : List Char) : Bool := hasTokGo l.length l

/-- A well-formed placeholder identifier: no braces and no line terminators. -/
def idOk (k : List Char) : Bool :=
  k.all (fun c => !(c = '{' || c = '}' || c = '\n' || c = '\r'))

/-- A template piece: literal text or a double-brace placeholder. -/
inductive Piece
  | lit (s : List Char)
  | hole (k : List Char)

/-- Render a piece list back into template text. -/
def renderPieces : List Piece → List Char
  | [] => []
  | .lit s :: ps => s ++ renderPieces ps
  | .hole k :: ps => '{' :: '{' :: (k ++ '}' :: '}' :: renderPieces ps)

/-- Well-formedness of a piece list against a replacement map: literal text
and replacement values contain no opening brace, every placeholder identifier
is well formed and its trimmed form is present in the map. -/
def wfPieces (repl : List (String × String)) : List Piece → Prop
  | [] => True
  | .lit s :: ps => (∀ c ∈ s, c ≠ '{') ∧ wfPieces repl ps
  | .hole k :: ps =>
    idOk k = true ∧
    (∃ v, List.lookup (trimChars k).asString repl = some v ∧ ∀ c ∈ v.data, c ≠ '{') ∧
    wfPieces repl ps

/-- Observable effects of an import run against the host store. -/
inductive Eff
  | noticeNoFiles
  | noticeTemplateMissing
  | readTemplate
  | readBib (name : String)
  | createFolder
  | createNote (path : String)
  | errorLog (file : String)
  | noticeSuccess
deriving DecidableEq

/-- The host vault state as seen by the orchestrator: whether the template
file resolves, whether the notes folder exists, and the existing note paths. -/
structure Vault where
  templateExists : Bool
  folderExists : Bool
  notes : List String
deriving DecidableEq

/-- A bibliography source file with its (externally parsed) entries. -/
structure BibFile where
  name : String
  entries : List Entry
deriving DecidableEq

/-- Result of the per-entry loop of one file: final vault, emitted effects,
and whether the loop ran to completion without the store throwing. -/
structure EntriesOut where
  vault : Vault
  effs : List Eff
  ok : Bool
deriving DecidableEq

/-- The folder-qualified path the note is created at. -/
def notePathFor (e : Entry) : String := "LN Literature Notes/" ++ fileNameFor e

/-- The per-entry loop body of importBibTeX: ensure the notes folder, then
create the note; creating at an existing path throws, which aborts the rest
of the file (effects already performed persist). -/
def processEntries : Vault → List Entry → EntriesOut
  | v, [] => ⟨v, [], true⟩
  | v, e :: es =>
    let path := notePathFor e
    let folderEffs := if v.folderExists then [] else [Eff.createFolder]
    if path ∈ v.notes then ⟨⟨v.templateExists, true, v.notes⟩, folderEffs, false⟩
    else
      let rest := processEntries ⟨v.templateExists, true, path :: v.notes⟩ es
      ⟨rest.vault, folderEffs ++ Eff.createNote path :: rest.effs, rest.ok⟩

/-- Processing of one bibliography file: read it, process at most limit of
its entries, and log-and-continue when an entry threw. -/
def processFile (v : Vault) (limit : Nat) (f : BibFile) : Vault × List Eff :=
  let r := processEntries v (f.entries.take limit)
  (r.vault, Eff.readBib f.name :: (r.effs ++ if r.ok then [] else [Eff.errorLog f.name]))

/-- The per-file loop of importBibTeX. -/
def processFiles : Vault → Nat → List BibFile → Vault × List Eff
  | v, _, [] => (v, [])
  | v, limit, f :: fs =>
    let r1 := processFile v limit f
    let r2 := processFiles r1.1 limit fs
    (r2.1, r1.2 ++ r2.2)

/-- importBibTeX of src/main.ts (first variant): no sources is a no-op
notice; a missing template aborts the run before anything else; otherwise
read the template, process every file, and emit the single success notice. -/
def importBibTeX (v : Vault) (limit : Nat) (files : List BibFile) : Vault × List Eff :=
  if files.isEmpty then (v, [Eff.noticeNoFiles])
  else if v.templateExists then
    let r := processFiles v limit files
    (r.1, Eff.readTemplate :: (r.2 ++ [Eff.noticeSuccess]))
  else (v, [Eff.noticeTemplateMissing])

/-- The effect trace of the run, segmented per source file. -/
def fileSegs : Vault → Nat → List BibFile → List (List Eff)
  | _, _, [] => []
  | v, limit, f :: fs =>
    (processFile v limit f).2 :: fileSegs (processFile v limit f).1 limit fs

def isCreateNote : Eff → Bool
  | .createNote _ => true
  | _ => false

def eFrye : Entry := ⟨"a", "book", [("author", FieldVal.vstr "Frye, Northrup")]⟩

def eSmith : Entry := ⟨"b", "book", [("author", FieldVal.vstr "Smith, John")]⟩

def exVault : Vault := ⟨true, true, []⟩

def exVaultFresh : Vault := ⟨true, false, []⟩

def exVaultNoTemplate : Vault := ⟨false, false, []⟩

def exFileA : BibFile := ⟨"one.bib", [eFrye, eSmith]⟩

def exFileB : BibFile := ⟨"two.bib", [eSmith]⟩

def exFileDup : BibFile := ⟨"dup.bib", [eFrye, eFrye, eSmith]⟩

def exV1 : Vault := ⟨true, true, [notePathFor eFrye]⟩

/-! ## Lemmas and claims -/

theorem collapseRuns_mem {p : Char → Bool} {r : Char} :
    ∀ {l : List Char} {c : Char}, c ∈ collapseRuns p r l → c = r ∨ c ∈ l := by
  intro l
  induction l with
  | nil => intro c h; simp [collapseRuns] at h
  | cons a l ih =>
    cases l with
    | nil =>
      intro c h
      by_cases hpa : p a
      · simp [collapseRuns, hpa] at h; exact Or.inl h
      · simp [collapseRuns, hpa] at h; exact Or.inr (by simp [h])
    | cons d cs =>
      intro c h
      by_cases had : p a && p d
      · simp only [collapseRuns, had, if_true] at h
        rcases ih h with h1 | h1
        · exact Or.inl h1
        · exact Or.inr (List.mem_cons_of_mem _ h1)
      · simp only [collapseRuns, had, if_false] at h
        rcases List.mem_cons.mp h with h1 | h1
        · by_cases hpa : p a
          · simp [hpa] at h1; exact Or.inl h1
          · simp [hpa] at h1; exact Or.inr (by simp [h1])
        · rcases ih h1 with h2 | h2
          · exact Or.inl h2
          · exact Or.inr (List.mem_cons_of_mem _ h2)

theorem collapseRuns_eq_self_of_not {p : Char → Bool} {r : Char} :
    ∀ {l : List Char}, (∀ c ∈ l, p c = false) → collapseRuns p r l = l := by
  intro l
  induction l with
  | nil => intro _; rfl
  | cons a l ih =>
    cases l with
    | nil =>
      intro h
      have := h a (by simp)
      simp [collapseRuns, this]
    | cons d cs =>
      intro h
      have ha := h a (by simp)
      have hrest : ∀ c ∈ d :: cs, p c = false := fun c hc => h c (List.mem_cons_of_mem _ hc)
      simp only [collapseRuns, ha, Bool.false_and, if_false, Bool.false_eq_true]
      exact congrArg _ (ih hrest)

theorem collapseRuns_no_p {p : Char → Bool} {r : Char} (hr : p r = false) :
    ∀ {l : List Char}, ∀ c ∈ collapseRuns p r l, p c = false := by
  intro l
  induction l with
  | nil => intro c h; simp [collapseRuns] at h
  | cons a l ih =>
    cases l with
    | nil =>
      intro c h
      by_cases hpa : p a
      · simp [collapseRuns, hpa] at h; rw [h]; exact hr
      · simp [collapseRuns, hpa] at h; rw [h]; simpa using hpa
    | cons d cs =>
      intro c h
      by_cases had : p a && p d
      · simp only [collapseRuns, had, if_true] at h
        exact ih c h
      · simp only [collapseRuns, had, if_false] at h
        rcases List.mem_cons.mp h with h1 | h1
        · by_cases hpa : p a
          · simp [hpa] at h1; rw [h1]; exact hr
          · simp [hpa] at h1; rw [h1]; simpa using hpa
        · exact ih c h1

theorem collapseRuns_head? {p : Char → Bool} {r : Char} :
    ∀ {l : List Char},
      (collapseRuns p r l).head? = l.head?.map (fun c => if p c then r else c) := by
  intro l
  induction l with
  | nil => rfl
  | cons a l ih =>
    cases l with
    | nil => by_cases hpa : p a <;> simp [collapseRuns, hpa]
    | cons d cs =>
      by_cases had : p a && p d
      · have hpa : p a = true := (Bool.and_eq_true_iff.mp had).1
        have hpd : p d = true := (Bool.and_eq_true_iff.mp had).2
        simp only [collapseRuns, had, if_true]
        rw [ih]
        simp [hpa, hpd]
      · simp [collapseRuns, had]

theorem collapseRuns_ne_nil {p : Char → Bool} {r : Char} :
    ∀ {l : List Char}, l ≠ [] → collapseRuns p r l ≠ [] := by
  intro l
  induction l with
  | nil => intro h; exact absurd rfl h
  | cons a l ih =>
    cases l with
    | nil => intro _; by_cases hpa : p a <;> simp [collapseRuns, hpa]
    | cons d cs =>
      intro _
      by_cases had : p a && p d
      · simp only [collapseRuns, had, if_true]
        exact ih (by simp)
      · simp [collapseRuns, had]

theorem collapseRuns_getLast? {p : Char → Bool} {r : Char} :
    ∀ {l : List Char},
      (collapseRuns p r l).getLast? = l.getLast?.map (fun c => if p c then r else c) := by
  intro l
  induction l with
  | nil => rfl
  | cons a l ih =>
    cases l with
    | nil => by_cases hpa : p a <;> simp [collapseRuns, hpa]
    | cons d cs =>
      have hne : collapseRuns p r (d :: cs) ≠ [] := collapseRuns_ne_nil (by simp)
      by_cases had : p a && p d
      · simp only [collapseRuns, had, if_true]
        rw [ih, List.getLast?_cons_cons]
      · simp only [collapseRuns, had, if_false, Bool.false_eq_true]
        rcases List.exists_cons_of_ne_nil hne with ⟨e, es, hes⟩
        rw [hes, List.getLast?_cons_cons, ← hes, ih, List.getLast?_cons_cons]

/-- Adjacent characters of a collapsed list never both satisfy p. -/
theorem collapseRuns_chain {p : Char → Bool} {r : Char} :
    ∀ {l : List Char},
      List.Chain' (fun a b => ¬(p a = true ∧ p b = true)) (collapseRuns p r l) := by
  intro l
  induction l with
  | nil => simp [collapseRuns]
  | cons a l ih =>
    cases l with
    | nil => by_cases hpa : p a <;> simp [collapseRuns, hpa]
    | cons d cs =>
      by_cases had : p a && p d
      · simp only [collapseRuns, had, if_true]; exact ih
      · simp only [collapseRuns, had, if_false, Bool.false_eq_true]
        rw [List.chain'_cons']
        refine ⟨?_, ih⟩
        intro y hy
        rw [collapseRuns_head?] at hy
        have hy' : y = if p d then r else d := by
          simpa using hy.symm
        subst hy'
        by_cases hpa : p a
        · have hpd : p d = false := by
            cases hpd : p d
            · rfl
            · exact absurd (by simp [hpa, hpd]) had
          simp only [hpd, if_false, Bool.false_eq_true]
          intro hcon
          exact hcon.2
        · simp only [if_neg hpa]
          intro hcon
          exact hpa hcon.1

/-- Every character of a collapsed list that satisfies p is the replacement. -/
theorem collapseRuns_p_eq_r {p : Char → Bool} {r : Char} :
    ∀ {l : List Char}, ∀ c ∈ collapseRuns p r l, p c = true → c = r := by
  intro l
  induction l with
  | nil => intro c h; simp [collapseRuns] at h
  | cons a l ih =>
    cases l with
    | nil =>
      intro c h hp
      by_cases hpa : p a
      · simp [collapseRuns, hpa] at h; exact h
      · simp [collapseRuns, hpa] at h; subst h; rw [hp] at hpa; exact absurd rfl hpa
    | cons d cs =>
      intro c h hp
      by_cases had : p a && p d
      · simp only [collapseRuns, had, if_true] at h
        exact ih c h hp
      · simp only [collapseRuns, had, if_false, Bool.false_eq_true] at h
        rcases List.mem_cons.mp h with h1 | h1
        · by_cases hpa : p a
          · simp [hpa] at h1; exact h1
          · simp [hpa] at h1; subst h1; rw [hp] at hpa; exact absurd rfl hpa
        · exact ih c h1 hp

theorem collapseRuns_eq_self_of_chain {p : Char → Bool} {r : Char} :
    ∀ {l : List Char}, List.Chain' (fun a b => ¬(p a = true ∧ p b = true)) l →
      (∀ c ∈ l, p c = true → c = r) → collapseRuns p r l = l := by
  intro l
  induction l with
  | nil => intro _ _; rfl
  | cons a l ih =>
    cases l with
    | nil =>
      intro _ hall
      by_cases hpa : p a
      · have := hall a (by simp) hpa
        simp [collapseRuns, hpa, this]
      · simp [collapseRuns, hpa]
    | cons d cs =>
      intro hch hall
      have hR : ¬(p a = true ∧ p d = true) := (List.chain'_cons.mp hch).1
      have had : (p a && p d) = false := by
        cases hpa : p a
        · simp
        · cases hpd : p d
          · simp
          · exact absurd ⟨hpa, hpd⟩ hR
      simp only [collapseRuns, had, if_false, Bool.false_eq_true]
      have htail := ih (List.chain'_cons.mp hch).2
        (fun c hc hp => hall c (List.mem_cons_of_mem _ hc) hp)
      rw [htail]
      by_cases hpa : p a
      · rw [if_pos hpa, hall a (by simp) hpa]
      · rw [if_neg hpa]

/-- Collapsing runs is idempotent. -/
theorem collapseRuns_idem (p : Char → Bool) (r : Char) (l : List Char) :
    collapseRuns p r (collapseRuns p r l) = collapseRuns p r l := by
  cases hr : p r
  · exact collapseRuns_eq_self_of_not (fun c hc => collapseRuns_no_p hr c hc)
  · exact collapseRuns_eq_self_of_chain collapseRuns_chain
      (fun c _ hp => collapseRuns_p_eq_r c (by assumption) hp)

theorem dropWhile_head?_false {p : Char → Bool} :
    ∀ {l : List Char} {c : Char}, (l.dropWhile p).head? = some c → p c = false := by
  intro l
  induction l with
  | nil => intro c h; simp [List.dropWhile] at h
  | cons a l ih =>
    intro c h
    by_cases hpa : p a
    · rw [List.dropWhile_cons_of_pos hpa] at h
      exact ih h
    · rw [List.dropWhile_cons_of_neg hpa] at h
      simp only [List.head?_cons, Option.some.injEq] at h
      subst h
      simpa using hpa

theorem dropWhile_eq_self_of_head {p : Char → Bool} {l : List Char}
    (h : ∀ c, l.head? = some c → p c = false) : l.dropWhile p = l := by
  cases l with
  | nil => rfl
  | cons a l =>
    have := h a rfl
    rw [List.dropWhile_cons_of_neg (by simp [this])]

theorem mem_dropWhile {p : Char → Bool} {l : List Char} {c : Char}
    (h : c ∈ l.dropWhile p) : c ∈ l := by
  have := List.takeWhile_append_dropWhile p l
  rw [← this]
  exact List.mem_append_right _ h

theorem trimChars_mem {l : List Char} {c : Char} (h : c ∈ trimChars l) : c ∈ l := by
  unfold trimChars at h
  rw [List.mem_reverse] at h
  have h2 := mem_dropWhile h
  rw [List.mem_reverse] at h2
  exact mem_dropWhile h2

theorem getLast?_dropWhile_of_ne_nil {p : Char → Bool} {l : List Char}
    (h : l.dropWhile p ≠ []) : (l.dropWhile p).getLast? = l.getLast? := by
  conv_rhs => rw [← List.takeWhile_append_dropWhile p l]
  rw [List.getLast?_append_of_ne_nil _ h]

theorem noWsEdge_trimChars (l : List Char) : noWsEdge (trimChars l) := by
  constructor
  · intro c h
    unfold trimChars at h
    rw [List.head?_reverse] at h
    by_cases hne : (l.dropWhile isWs).reverse.dropWhile isWs = []
    · rw [hne] at h; simp at h
    · rw [getLast?_dropWhile_of_ne_nil hne, List.getLast?_reverse] at h
      exact dropWhile_head?_false h
  · intro c h
    unfold trimChars at h
    rw [List.getLast?_reverse] at h
    exact dropWhile_head?_false h

theorem trimChars_eq_self {l : List Char} (h : noWsEdge l) : trimChars l = l := by
  unfold trimChars
  rw [dropWhile_eq_self_of_head h.1]
  rw [dropWhile_eq_self_of_head (by intro c hc; rw [List.head?_reverse] at hc; exact h.2 c hc)]
  exact List.reverse_reverse l

theorem map_eq_self_of {f : Char → Char} :
    ∀ {l : List Char}, (∀ c ∈ l, f c = c) → l.map f = l := by
  intro l
  induction l with
  | nil => intro _; rfl
  | cons a l ih =>
    intro h
    simp only [List.map_cons]
    rw [h a (by simp), ih (fun c hc => h c (List.mem_cons_of_mem _ hc))]

theorem sanitizeBase_mem {l : List Char} : ∀ c ∈ sanitizeBase l, goodChar c := by
  intro c hc
  have h1 := trimChars_mem hc
  rw [List.mem_filter] at h1
  obtain ⟨h2, hparen⟩ := h1
  rw [List.mem_map] at h2
  obtain ⟨c0, hc0, hrepl⟩ := h2
  rw [List.mem_filter] at hc0
  refine ⟨?_, ?_, by simpa using hparen⟩
  · by_cases hdot : c0 = '.'
    · rw [← hrepl]; simp [dotRepl, hdot]; decide
    · rw [← hrepl]; simp only [dotRepl, if_neg hdot]; simpa using hc0.2
  · by_cases hdot : c0 = '.'
    · rw [← hrepl]; simp [dotRepl, hdot]
    · rw [← hrepl]; simp [dotRepl, hdot]

theorem sanitizeBase_noWsEdge (l : List Char) : noWsEdge (sanitizeBase l) :=
  noWsEdge_trimChars _

theorem sanitizeBase_eq_self {l : List Char} (hgood : ∀ c ∈ l, goodChar c)
    (hedge : noWsEdge l) : sanitizeBase l = l := by
  unfold sanitizeBase
  have h1 : l.filter (fun c => !(isInvalidFs c)) = l :=
    List.filter_eq_self.mpr (fun c hc => by simp [(hgood c hc).1])
  rw [h1]
  have h2 : l.map dotRepl = l :=
    map_eq_self_of (fun c hc => by simp [dotRepl, (hgood c hc).2.1])
  rw [h2]
  have h3 : l.filter (fun c => !(isParen c)) = l :=
    List.filter_eq_self.mpr (fun c hc => by simp [(hgood c hc).2.2])
  rw [h3]
  exact trimChars_eq_self hedge

theorem noWsEdge_collapse {p : Char → Bool} {r : Char} {l : List Char}
    (hr : isWs r = false) (h : noWsEdge l) : noWsEdge (collapseRuns p r l) := by
  constructor
  · intro c hc
    rw [collapseRuns_head?] at hc
    cases hl : l.head? with
    | none => rw [hl] at hc; simp at hc
    | some a =>
      rw [hl] at hc
      simp only [Option.map_some', Option.some.injEq] at hc
      subst hc
      by_cases hpa : p a
      · rw [if_pos hpa]; exact hr
      · rw [if_neg hpa]; exact h.1 a hl
  · intro c hc
    rw [collapseRuns_getLast?] at hc
    cases hl : l.getLast? with
    | none => rw [hl] at hc; simp at hc
    | some a =>
      rw [hl] at hc
      simp only [Option.map_some', Option.some.injEq] at hc
      subst hc
      by_cases hpa : p a
      · rw [if_pos hpa]; exact hr
      · rw [if_neg hpa]; exact h.2 a hl

theorem noWsEdge_collapse_ws {r : Char} {l : List Char}
    (h : noWsEdge l) : noWsEdge (collapseRuns isWs r l) := by
  constructor
  · intro c hc
    rw [collapseRuns_head?] at hc
    cases hl : l.head? with
    | none => rw [hl] at hc; simp at hc
    | some a =>
      rw [hl] at hc
      simp only [Option.map_some', Option.some.injEq] at hc
      subst hc
      rw [if_neg (by simp [h.1 a hl])]
      exact h.1 a hl
  · intro c hc
    rw [collapseRuns_getLast?] at hc
    cases hl : l.getLast? with
    | none => rw [hl] at hc; simp at hc
    | some a =>
      rw [hl] at hc
      simp only [Option.map_some', Option.some.injEq] at hc
      subst hc
      rw [if_neg (by simp [h.2 a hl])]
      exact h.2 a hl

theorem noWsEdge_of_noWsAll {l : List Char} (h : ∀ c ∈ l, isWs c = false) :
    noWsEdge l :=
  ⟨fun c hc => h c (List.mem_of_mem_head? hc), fun c hc => h c (List.mem_of_mem_getLast? hc)⟩

theorem goodChar_collapse {p : Char → Bool} {r : Char} {l : List Char}
    (hr : goodChar r) (h : ∀ c ∈ l, goodChar c) : ∀ c ∈ collapseRuns p r l, goodChar c := by
  intro c hc
  rcases collapseRuns_mem hc with h1 | h1
  · rw [h1]; exact hr
  · exact h c h1

theorem sanitizeCore_idem (ps ft : Bool) (l : List Char) :
    sanitizeCore ps ft (sanitizeCore ps ft l) = sanitizeCore ps ft l := by
  have hgu : goodChar '_' := ⟨by decide, by decide, by decide⟩
  have hgs : goodChar ' ' := ⟨by decide, by decide, by decide⟩
  have e00 : ∀ x, sanitizeCore false false x = collapseRuns isWs ' ' (sanitizeBase x) :=
    fun x => rfl
  have e01 : ∀ x, sanitizeCore false true x
      = collapseRuns (fun c => c = '_') '_' (collapseRuns isWs '_' (sanitizeBase x)) :=
    fun x => rfl
  have e10 : ∀ x, sanitizeCore true false x = sanitizeBase x := fun x => rfl
  have e11 : ∀ x, sanitizeCore true true x
      = collapseRuns (fun c => c = '_') '_' (sanitizeBase x) := fun x => rfl
  cases ps <;> cases ft
  · -- preserveSpaces = false, forTags = false
    rw [e00, e00, sanitizeBase_eq_self
      (goodChar_collapse hgs (sanitizeBase_mem))
      (noWsEdge_collapse_ws (sanitizeBase_noWsEdge l))]
    exact collapseRuns_idem _ _ _
  · -- preserveSpaces = false, forTags = true
    have hnoWs : ∀ c ∈ collapseRuns (fun c => c = '_') '_'
        (collapseRuns isWs '_' (sanitizeBase l)), isWs c = false := by
      intro c hc
      rcases collapseRuns_mem hc with h1 | h1
      · rw [h1]; decide
      · exact collapseRuns_no_p (by decide) c h1
    have hgood : ∀ c ∈ collapseRuns (fun c => c = '_') '_'
        (collapseRuns isWs '_' (sanitizeBase l)), goodChar c :=
      goodChar_collapse hgu (goodChar_collapse hgu (sanitizeBase_mem))
    rw [e01, e01, sanitizeBase_eq_self hgood (noWsEdge_of_noWsAll hnoWs),
      collapseRuns_eq_self_of_not hnoWs]
    exact collapseRuns_idem _ _ _
  · -- preserveSpaces = true, forTags = false
    rw [e10, e10]
    exact sanitizeBase_eq_self sanitizeBase_mem (sanitizeBase_noWsEdge l)
  · -- preserveSpaces = true, forTags = true
    rw [e11, e11, sanitizeBase_eq_self
      (goodChar_collapse hgu (sanitizeBase_mem))
      (noWsEdge_collapse (by decide) (sanitizeBase_noWsEdge l))]
    exact collapseRuns_idem _ _ _

/-- One scan step bound: on success the grabbed remainder is shorter than the
input by at least the token body and its terminator. -/
theorem grabTok_length : ∀ {cs : List Char} {p : List Char × List Char},
    grabTok cs = some p → p.2.length + 2 ≤ cs.length := by
  intro cs
  induction cs with
  | nil => intro p h; simp [grabTok] at h
  | cons c rest ih =>
    intro p h
    unfold grabTok at h
    by_cases h1 : c = '}' ∧ rest.head? = some '}'
    · rw [if_pos h1] at h
      obtain ⟨hc, hrest⟩ := h1
      cases rest with
      | nil => simp at hrest
      | cons d rest2 =>
        simp only [Option.some.injEq] at h
        subst h
        simp [List.length_cons]
    · rw [if_neg h1] at h
      by_cases h2 : c = '\n' ∨ c = '\r'
      · rw [if_pos h2] at h; simp at h
      · rw [if_neg h2] at h
        cases hg : grabTok rest with
        | none => rw [hg] at h; simp at h
        | some q =>
          rw [hg] at h
          simp only [Option.map_some', Option.some.injEq] at h
          subst h
          have := ih hg
          simp only [List.length_cons]
          omega

theorem popAuxGo_congr (repl : List (String × String)) :
    ∀ (f1 : Nat) (f2 : Nat) (l : List Char), l.length ≤ f1 → l.length ≤ f2 →
      popAuxGo repl f1 l = popAuxGo repl f2 l := by
  intro f1
  induction f1 with
  | zero =>
    intro f2 l h1 _
    have : l = [] := List.length_eq_zero.mp (Nat.le_zero.mp h1)
    subst this
    cases f2 <;> simp [popAuxGo]
  | succ a ih =>
    intro f2 l h1 h2
    cases l with
    | nil => cases f2 <;> simp [popAuxGo]
    | cons c rest =>
      cases f2 with
      | zero => simp at h2
      | succ b =>
        have hrest1 : rest.length ≤ a := by simp only [List.length_cons] at h1; omega
        have hrest2 : rest.length ≤ b := by simp only [List.length_cons] at h2; omega
        by_cases hc : c = '{'
        · cases rest with
          | nil => simp [popAuxGo, hc]
          | cons d rest2 =>
            by_cases hd : d = '{'
            · cases hg : grabTok rest2 with
              | none =>
                simp only [popAuxGo, hc, hd, hg, eq_self_iff_true, if_true]
                rw [ih b ('{' :: rest2) (by simpa [hc] using hrest1)
                  (by simpa [hc] using hrest2)]
              | some kr =>
                have hkr := grabTok_length hg
                have hl1 : kr.2.length ≤ a := by
                  simp only [List.length_cons] at h1; omega
                have hl2 : kr.2.length ≤ b := by
                  simp only [List.length_cons] at h2; omega
                simp only [popAuxGo, hc, hd, hg, eq_self_iff_true, if_true]
                rw [ih b kr.2 hl1 hl2]
            · simp only [popAuxGo, hc, eq_self_iff_true, if_true, if_neg hd]
              rw [ih b (d :: rest2) (by simpa [hc] using hrest1)
                (by simpa [hc] using hrest2)]
        · simp only [popAuxGo, if_neg hc]
          rw [ih b rest hrest1 hrest2]

theorem popAux_cons_safe (repl : List (String × String)) {c : Char} (l : List Char)
    (hc : c ≠ '{') : popAux repl (c :: l) = c :: popAux repl l := by
  unfold popAux
  simp only [List.length_cons, popAuxGo, if_neg hc]

theorem grabTok_exact {k : List Char} (rest : List Char)
    (hk : ∀ c ∈ k, c ≠ '{' ∧ c ≠ '}' ∧ c ≠ '\n' ∧ c ≠ '\r') :
    grabTok (k ++ '}' :: '}' :: rest) = some (k, rest) := by
  induction k with
  | nil => simp [grabTok]
  | cons c k' ih =>
    have hc := hk c (by simp)
    have hrest : ∀ c ∈ k', c ≠ '{' ∧ c ≠ '}' ∧ c ≠ '\n' ∧ c ≠ '\r' :=
      fun x hx => hk x (List.mem_cons_of_mem _ hx)
    simp only [List.cons_append, grabTok]
    rw [if_neg (by intro hcon; exact hc.2.1 hcon.1),
      if_neg (by intro hcon; rcases hcon with h | h; exact hc.2.2.1 h; exact hc.2.2.2 h)]
    show Option.map (fun p => (c :: p.1, p.2)) (grabTok (k' ++ '}' :: '}' :: rest))
      = some (c :: k', rest)
    rw [ih hrest]
    rfl

theorem idOk_props {k : List Char} (hk : idOk k = true) :
    ∀ c ∈ k, c ≠ '{' ∧ c ≠ '}' ∧ c ≠ '\n' ∧ c ≠ '\r' := by
  intro c hc
  have := List.all_eq_true.mp hk c hc
  refine ⟨?_, ?_, ?_, ?_⟩ <;> intro h <;> subst h <;> simp at this

theorem popAux_at_token (repl : List (String × String)) {k : List Char} (rest : List Char)
    (hk : idOk k = true) :
    popAux repl ('{' :: '{' :: (k ++ '}' :: '}' :: rest))
      = substFor repl k ++ popAux repl rest := by
  have hg := grabTok_exact rest (idOk_props hk)
  have hstep : popAuxGo repl ((k ++ '}' :: '}' :: rest).length + 1 + 1)
      ('{' :: '{' :: (k ++ '}' :: '}' :: rest))
      = match grabTok (k ++ '}' :: '}' :: rest) with
        | some kr => substFor repl kr.1
            ++ popAuxGo repl ((k ++ '}' :: '}' :: rest).length + 1) kr.2
        | none => '{' :: popAuxGo repl ((k ++ '}' :: '}' :: rest).length + 1)
            ('{' :: (k ++ '}' :: '}' :: rest)) := rfl
  unfold popAux
  have hlenlist : ('{' :: '{' :: (k ++ '}' :: '}' :: rest)).length
      = (k ++ '}' :: '}' :: rest).length + 1 + 1 := by simp
  rw [hlenlist, hstep, hg]
  show substFor repl k ++ popAuxGo repl ((k ++ '}' :: '}' :: rest).length + 1) rest = _
  congr 1
  apply popAuxGo_congr
  · simp only [List.length_append, List.length_cons]; omega
  · exact le_refl _

theorem popAux_append_safe (repl : List (String × String)) :
    ∀ (pre : List Char) (t : List Char), (∀ c ∈ pre, c ≠ '{') →
      popAux repl (pre ++ t) = pre ++ popAux repl t := by
  intro pre
  induction pre with
  | nil => intro t _; rfl
  | cons c pre' ih =>
    intro t h
    rw [List.cons_append, popAux_cons_safe repl _ (h c (by simp)),
      ih t (fun x hx => h x (List.mem_cons_of_mem _ hx))]
    rfl

theorem hasTokGo_congr :
    ∀ (f1 : Nat) (f2 : Nat) (l : List Char), l.length ≤ f1 → l.length ≤ f2 →
      hasTokGo f1 l = hasTokGo f2 l := by
  intro f1
  induction f1 with
  | zero =>
    intro f2 l h1 _
    have : l = [] := List.length_eq_zero.mp (Nat.le_zero.mp h1)
    subst this
    cases f2 <;> simp [hasTokGo]
  | succ a ih =>
    intro f2 l h1 h2
    cases l with
    | nil => cases f2 <;> simp [hasTokGo]
    | cons c rest =>
      cases f2 with
      | zero => simp at h2
      | succ b =>
        have hlen : rest.length ≤ a := by simp only [List.length_cons] at h1; omega
        have hlen2 : rest.length ≤ b := by simp only [List.length_cons] at h2; omega
        by_cases hc : c = '{'
        · cases rest with
          | nil => simp [hasTokGo, hc]
          | cons d rest2 =>
            by_cases hd : d = '{'
            · cases hg : grabTok rest2 with
              | none =>
                simp only [hasTokGo, hc, hd, hg, eq_self_iff_true, if_true]
                rw [ih b ('{' :: rest2) (by simpa [hc] using hlen)
                  (by simpa [hc] using hlen2)]
              | some kr =>
                simp only [hasTokGo, hc, hd, hg, eq_self_iff_true, if_true]
            · simp only [hasTokGo, hc, eq_self_iff_true, if_true, if_neg hd]
              rw [ih b (d :: rest2) (by simpa [hc] using hlen)
                (by simpa [hc] using hlen2)]
        · simp only [hasTokGo, if_neg hc]
          rw [ih b rest hlen hlen2]

theorem hasTok_cons_safe {c : Char} (l : List Char) (hc : c ≠ '{') :
    hasTok (c :: l) = hasTok l := by
  unfold hasTok
  simp only [List.length_cons, hasTokGo, if_neg hc]

theorem hasTok_no_brace : ∀ {l : List Char}, (∀ c ∈ l, c ≠ '{') → hasTok l = false := by
  intro l
  induction l with
  | nil => intro _; rfl
  | cons c rest ih =>
    intro h
    rw [hasTok_cons_safe rest (h c (by simp))]
    exact ih (fun x hx => h x (List.mem_cons_of_mem _ hx))

theorem popAux_render_no_brace (repl : List (String × String)) :
    ∀ (ps : List Piece), wfPieces repl ps →
      ∀ c ∈ popAux repl (renderPieces ps), c ≠ '{' := by
  intro ps
  induction ps with
  | nil => intro _ c hc; simp [popAux, popAuxGo, renderPieces] at hc
  | cons p ps' ih =>
    cases p with
    | lit s =>
      intro hwf c hc
      obtain ⟨hs, hps⟩ := hwf
      rw [renderPieces, popAux_append_safe repl s _ hs] at hc
      rcases List.mem_append.mp hc with h | h
      · exact hs c h
      · exact ih hps c h
    | hole k =>
      intro hwf c hc
      obtain ⟨hid, ⟨v, hv, hvfree⟩, hps⟩ := hwf
      rw [renderPieces, popAux_at_token repl _ hid] at hc
      rcases List.mem_append.mp hc with h | h
      · rw [substFor, hv] at h
        exact hvfree c h
      · exact ih hps c h

theorem processFiles_eq_join :
    ∀ (files : List BibFile) (v : Vault) (limit : Nat),
      (processFiles v limit files).2 = (fileSegs v limit files).flatten := by
  intro files
  induction files with
  | nil => intro v limit; rfl
  | cons f fs ih =>
    intro v limit
    simp only [processFiles, fileSegs, List.flatten_cons]
    rw [ih]

theorem fileSegs_length :
    ∀ (files : List BibFile) (v : Vault) (limit : Nat),
      (fileSegs v limit files).length = files.length := by
  intro files
  induction files with
  | nil => intro v limit; rfl
  | cons f fs ih =>
    intro v limit
    simp only [fileSegs, List.length_cons]
    rw [ih]

theorem processEntries_count :
    ∀ (es : List Entry) (v : Vault),
      ((processEntries v es).effs.countP isCreateNote) ≤ es.length := by
  intro es
  induction es with
  | nil => intro v; simp [processEntries]
  | cons e es ih =>
    intro v
    have h0 : List.countP isCreateNote
        (if v.folderExists then ([] : List Eff) else [Eff.createFolder]) = 0 := by
      by_cases hf : v.folderExists <;> simp [hf, isCreateNote]
    simp only [processEntries]
    by_cases hdup : notePathFor e ∈ v.notes
    · rw [if_pos hdup]
      show List.countP isCreateNote
        (if v.folderExists then ([] : List Eff) else [Eff.createFolder]) ≤ (e :: es).length
      rw [h0]
      exact Nat.zero_le _
    · rw [if_neg hdup]
      have hih := ih ⟨v.templateExists, true, notePathFor e :: v.notes⟩
      show List.countP isCreateNote
        ((if v.folderExists then ([] : List Eff) else [Eff.createFolder]) ++
          Eff.createNote (notePathFor e) ::
            (processEntries ⟨v.templateExists, true, notePathFor e :: v.notes⟩ es).effs)
        ≤ (e :: es).length
      rw [List.countP_append, h0, List.countP_cons]
      have h1 : isCreateNote (Eff.createNote (notePathFor e)) = true := rfl
      rw [h1]
      simp only [if_true, List.length_cons, Nat.zero_add]
      omega

theorem processFile_count (v : Vault) (limit : Nat) (f : BibFile) :
    ((processFile v limit f).2.countP isCreateNote) ≤ limit := by
  have h1 := processEntries_count (f.entries.take limit) v
  have h2 : (f.entries.take limit).length ≤ limit := List.length_take_le _ _
  have h4 : List.countP isCreateNote
      (if (processEntries v (f.entries.take limit)).ok then ([] : List Eff)
        else [Eff.errorLog f.name]) = 0 := by
    by_cases hok : (processEntries v (f.entries.take limit)).ok <;> simp [hok, isCreateNote]
  simp only [processFile, List.countP_cons, List.countP_append, h4]
  have h3 : isCreateNote (Eff.readBib f.name) = false := rfl
  rw [h3]
  simp only [Bool.false_eq_true, if_false]
  omega

theorem processEntries_fail_append :
    ∀ (es1 : List Entry) (v v1 : Vault) (effs1 : List Eff) (e : Entry) (es2 : List Entry),
      processEntries v es1 = ⟨v1, effs1, true⟩ →
      v1.folderExists = true →
      notePathFor e ∈ v1.notes →
      processEntries v (es1 ++ e :: es2) = ⟨v1, effs1, false⟩ := by
  intro es1
  induction es1 with
  | nil =>
    intro v v1 effs1 e es2 hrun hfold hdup
    have h1 : v = v1 ∧ ([] : List Eff) = effs1 := by
      have h2 := hrun
      simp only [processEntries, EntriesOut.mk.injEq] at h2
      exact ⟨h2.1, h2.2.1⟩
    obtain ⟨hv, heffs⟩ := h1
    subst hv
    subst heffs
    obtain ⟨t, fo, n⟩ := v
    simp only at hfold hdup
    subst hfold
    simp only [List.nil_append, processEntries]
    rw [if_pos (by simpa using hdup)]
    simp
  | cons a es1' ih =>
    intro v v1 effs1 e es2 hrun hfold hdup
    simp only [processEntries] at hrun
    by_cases hdupa : notePathFor a ∈ v.notes
    · rw [if_pos hdupa] at hrun
      simp only [EntriesOut.mk.injEq] at hrun
      exact absurd hrun.2.2 (by simp)
    · rw [if_neg hdupa] at hrun
      rcases hE : processEntries ⟨v.templateExists, true, notePathFor a :: v.notes⟩ es1'
        with ⟨vv, ee, oo⟩
      rw [hE] at hrun
      simp only [EntriesOut.mk.injEq] at hrun
      obtain ⟨hvault, heffs, hok⟩ := hrun
      rw [hvault, hok] at hE
      have hstep := ih ⟨v.templateExists, true, notePathFor a :: v.notes⟩ v1 ee e es2
        hE hfold hdup
      show processEntries v (a :: (es1' ++ e :: es2)) = _
      simp only [processEntries]
      rw [if_neg hdupa, hstep]
      simp [EntriesOut.mk.injEq, ← heffs]

theorem processFiles_append (limit : Nat) (l2 : List BibFile) :
    ∀ (l1 : List BibFile) (v : Vault),
      processFiles v limit (l1 ++ l2)
        = ((processFiles (processFiles v limit l1).1 limit l2).1,
           (processFiles v limit l1).2 ++ (processFiles (processFiles v limit l1).1 limit l2).2) := by
  intro l1
  induction l1 with
  | nil =>
    intro v
    simp only [List.nil_append, processFiles]
  | cons f fs ih =>
    intro v
    simp only [List.cons_append, processFiles, List.append_eq]
    rw [ih]
    simp [List.append_assoc]

theorem importBibTeX_run (v : Vault) (limit : Nat) (files : List BibFile)
    (hne : files ≠ []) (ht : v.templateExists = true) :
    importBibTeX v limit files
      = ((processFiles v limit files).1,
         Eff.readTemplate :: ((processFiles v limit files).2 ++ [Eff.noticeSuccess])) := by
  have hempty : files.isEmpty = false := by
    cases files with
    | nil => exact absurd rfl hne
    | cons f fs => rfl
  simp only [importBibTeX, hempty, Bool.false_eq_true, if_false, ht, if_true]

/-- Claim C1: the claim states that processAuthors returns a non-empty
author-tag list for every accepted author shape. The code violates this for
the third shape: a single structured author object matches neither the
string branch nor the array branch of processAuthors, so the function falls
through and returns an empty tag list and an empty filename author, while
the absent and sentinel cases do return the single unknown-author entry. -/
theorem c1_process_authors_single_object :
    processAuthors (RawAuthor.robj ⟨some "Northrup", some "Frye"⟩) = some ([], "")
    ∧ processAuthors RawAuthor.absent = some (["#UnknownAuthor"], "UnknownAuthor")
    ∧ processAuthors (RawAuthor.rstr "Unknown Author")
      = some (["#UnknownAuthor"], "UnknownAuthor") := by
  refine ⟨by decide, by decide, by decide⟩

/-- Claim C2, counterexample: an author field containing a question mark
flows unsanitized into the filename author component, so the derived
filename contains a forbidden character. -/
theorem c2_counterexample :
    fileNameFor ⟨"k1", "book", [("author", FieldVal.vstr "Fr?ye, Northrup")]⟩
      = "LNL Fr?yeN Unknown Year Untitled.md"
    ∧ '?' ∈ (fileNameFor ⟨"k1", "book", [("author", FieldVal.vstr "Fr?ye, Northrup")]⟩).data
    ∧ isInvalidFs '?' = true := by
  refine ⟨by decide, by decide, by decide⟩

/-- Claim C2, amended: for every entry the derived filename is a non-empty
string ending in a dot-m-d suffix, and its title component is free of the
forbidden characters; the author and year components are inserted without
sanitization and may carry forbidden characters from the source fields. -/
theorem c2_filename_shape (e : Entry) :
    (fileNameFor e).data ≠ []
    ∧ (∃ stem, (fileNameFor e).data = stem ++ ('.' :: 'm' :: 'd' :: []))
    ∧ (sanitizedTitleOf e.fields).all (fun c => !(isInvalidFs c)) = true := by
  refine ⟨?_, ?_, ?_⟩
  · simp [fileNameFor, String.data_append]
  · refine ⟨("LNL " ++ firstAuthorTagOf e.fields ++ " " ++ yearOf e.fields ++ " "
      ++ (sanitizedTitleOf e.fields).asString).data, ?_⟩
    simp [fileNameFor, String.data_append]
  · rw [List.all_eq_true]
    intro c hc
    have hc2 := List.mem_of_mem_take hc
    rw [List.mem_map] at hc2
    obtain ⟨c0, _, hrepl⟩ := hc2
    subst hrepl
    by_cases h : isInvalidFs c0 = true
    · simp only [invalidToUnd, h, if_true]
      decide
    · simp only [Bool.not_eq_true] at h
      simp [invalidToUnd, h]

/-- Claim C3, counterexample: substitution is verbatim and single-pass, so a
replacement value that itself contains a double-brace token leaves that token
in the output even though every template placeholder was recognized and the
map was complete. -/
theorem c3_counterexample :
    populate "\x7b\x7ba\x7d\x7d" [("a", "\x7b\x7bb\x7d\x7d")] = "\x7b\x7bb\x7d\x7d"
    ∧ hasTok ("\x7b\x7bb\x7d\x7d".data) = true := by
  refine ⟨by decide, by decide⟩

/-- Claim C3, amended: in any context whose preceding text contains no opening
brace, a double-brace token whose trimmed identifier is present in the map is
replaced by the mapped value verbatim and scanning continues after the token
(single left-to-right pass, no recursive substitution); a token whose trimmed
identifier is absent is reproduced character for character. Consequently a
template consisting only of recognized placeholders and brace-free literal
text, populated with a map whose values contain no opening brace, yields
output with zero double-brace tokens. -/
theorem c3_populate_tokens :
    (∀ (repl : List (String × String)) (pre k rest : List Char),
      (∀ c ∈ pre, c ≠ '{') → idOk k = true →
      popAux repl (pre ++ '{' :: '{' :: (k ++ '}' :: '}' :: rest))
        = pre ++ (match List.lookup (trimChars k).asString repl with
            | some v => v.data
            | none => '{' :: '{' :: (k ++ '}' :: '}' :: [])) ++ popAux repl rest)
    ∧ (∀ (repl : List (String × String)) (ps : List Piece),
      wfPieces repl ps → hasTok (popAux repl (renderPieces ps)) = false) := by
  constructor
  · intro repl pre k rest hpre hk
    rw [popAux_append_safe repl pre _ hpre, popAux_at_token repl rest hk,
      List.append_assoc]
    rfl
  · intro repl ps hwf
    exact hasTok_no_brace (popAux_render_no_brace repl ps hwf)

/-- Claim C3, witness: the populate theorem applied to a concrete template
with one literal piece and one recognized placeholder. -/
theorem c3_witness :
    (popAux [("a", "X")] ("A".data ++ '{' :: '{' :: ("a".data ++ '}' :: '}' :: "B".data))
      = "A".data ++ (match List.lookup (trimChars "a".data).asString [("a", "X")] with
          | some v => v.data
          | none => '{' :: '{' :: ("a".data ++ '}' :: '}' :: [])) ++ popAux [("a", "X")] "B".data)
    ∧ hasTok (popAux [("a", "X")]
        (renderPieces [Piece.lit "A".data, Piece.hole "a".data])) = false :=
  ⟨c3_populate_tokens.1 [("a", "X")] "A".data "a".data "B".data (by decide) (by decide),
   c3_populate_tokens.2 [("a", "X")] [Piece.lit "A".data, Piece.hole "a".data]
     (by
       show (∀ c ∈ "A".data, c ≠ '{')
         ∧ (idOk "a".data = true
           ∧ (∃ v, List.lookup (trimChars "a".data).asString [("a", "X")] = some v
               ∧ ∀ c ∈ v.data, c ≠ '{')
           ∧ True)
       exact ⟨by decide, by decide, ⟨"X", rfl, by decide⟩, trivial⟩)⟩

theorem fileSegs_count :
    ∀ (files : List BibFile) (v : Vault) (limit : Nat) (seg : List Eff),
      seg ∈ fileSegs v limit files → seg.countP isCreateNote ≤ limit := by
  intro files
  induction files with
  | nil => intro v limit seg h; simp [fileSegs] at h
  | cons f fs ih =>
    intro v limit seg h
    simp only [fileSegs, List.mem_cons] at h
    rcases h with h | h
    · rw [h]; exact processFile_count v limit f
    · exact ih _ limit seg h

/-- Claim C4: the effect trace of a run is the concatenation of one segment
per source file (in order), and each file segment contains at most limit
note creations: the entry limit applies to each file independently, not
cumulatively across the run. -/
theorem c4_entry_limit_per_file (v : Vault) (limit : Nat) (files : List BibFile)
    (hne : files ≠ []) (ht : v.templateExists = true) :
    (importBibTeX v limit files).2
      = Eff.readTemplate :: ((fileSegs v limit files).flatten ++ [Eff.noticeSuccess])
    ∧ (fileSegs v limit files).length = files.length
    ∧ ∀ seg ∈ fileSegs v limit files, seg.countP isCreateNote ≤ limit := by
  refine ⟨?_, fileSegs_length files v limit, fun seg h => fileSegs_count files v limit seg h⟩
  rw [importBibTeX_run v limit files hne ht, processFiles_eq_join]

/-- Claim C4, witness: the per-file limit theorem applied to a run over two
concrete files with limit one. -/
theorem c4_witness :
    (importBibTeX exVaultFresh 1 [exFileA, exFileB]).2
      = Eff.readTemplate :: ((fileSegs exVaultFresh 1 [exFileA, exFileB]).flatten
          ++ [Eff.noticeSuccess]) :=
  (c4_entry_limit_per_file exVaultFresh 1 [exFileA, exFileB] (by simp) rfl).1

/-- Claim C5: when the resolved template file does not exist (and there was
at least one bibliography file, so the run reaches template resolution), the
run terminates with only the template-missing notice: the vault state is
unchanged, no bibliography content is read, no folder is created and no note
is written. -/
theorem c5_template_missing_fatal (v : Vault) (limit : Nat) (files : List BibFile)
    (hne : files ≠ []) (ht : v.templateExists = false) :
    importBibTeX v limit files = (v, [Eff.noticeTemplateMissing]) := by
  have hempty : files.isEmpty = false := by
    cases files with
    | nil => exact absurd rfl hne
    | cons f fs => rfl
  simp [importBibTeX, hempty, ht]

/-- Claim C5, witness: a concrete run over one file with the template
missing. -/
theorem c5_witness :
    importBibTeX exVaultNoTemplate 5 [exFileA]
      = (exVaultNoTemplate, [Eff.noticeTemplateMissing]) :=
  c5_template_missing_fatal exVaultNoTemplate 5 [exFileA] (by simp) rfl

/-- Claim C6: sanitizeString is idempotent for every input string and every
fixed choice of the preserveSpaces and forTags options. -/
theorem c6_sanitize_idempotent (x : String) (preserveSpaces forTags : Bool) :
    sanitizeString (sanitizeString x preserveSpaces forTags) preserveSpaces forTags
      = sanitizeString x preserveSpaces forTags := by
  show (⟨sanitizeCore preserveSpaces forTags
    (sanitizeCore preserveSpaces forTags x.data)⟩ : String)
    = ⟨sanitizeCore preserveSpaces forTags x.data⟩
  rw [sanitizeCore_idem]

/-- Claim C7: the claim states that the filename author for several authors
is the first author's last name followed by the et-al suffix. The code takes
the text before the first comma of the whole cleaned author string, so the
comma-free input of the claim's own scenario yields the entire string with
the suffix rather than the first last name. -/
theorem c7_filename_author_multi :
    processAuthors (RawAuthor.rstr "Northrup Frye and John Smith")
      = some (["#FryeN", "#SmithJ"], "Northrup Frye and John Smith et al")
    ∧ "Northrup Frye and John Smith et al" ≠ "Frye et al" := by
  refine ⟨by decide, by decide⟩

/-- Claim C8, counterexample: keywords are not run through the sanitizer;
only whitespace runs are replaced by underscores, so the hyphen in the
claim's own example is preserved and the expected sanitized tag list is not
produced. -/
theorem c8_counterexample :
    keywordTags "Old English, Anglo-Saxon" = ["#Old_English", "#Anglo-Saxon"]
    ∧ ["#Old_English", "#Anglo-Saxon"] ≠ ["#Old_English", "#Anglo_Saxon"] := by
  refine ⟨by decide, by decide⟩

/-- Claim C8, amended: every rendered keyword tag is a hash followed by the
trimmed keyword with its whitespace runs replaced by underscores, so tags
start with a hash and contain no whitespace after it; non-whitespace
punctuation is kept, and the example keywords string yields the hyphenated
tag. -/
theorem data_asString (l : List Char) : (List.asString l).data = l := rfl

theorem c8_keyword_tags :
    (∀ kw : String, (keywordTags kw).all
      (fun t => (t.data.head? = some '#') && t.data.tail.all (fun c => !(isWs c))) = true)
    ∧ keywordTags "Old English, Anglo-Saxon" = ["#Old_English", "#Anglo-Saxon"] := by
  constructor
  · intro kw
    rw [List.all_eq_true]
    intro t ht
    unfold keywordTags at ht
    by_cases hkw : trimChars kw.data = []
    · rw [if_pos hkw] at ht
      simp at ht
    · rw [if_neg hkw, List.map_map, List.mem_map] at ht
      obtain ⟨k, _, hkt⟩ := ht
      subst hkt
      simp only [Function.comp]
      rw [Bool.and_eq_true]
      constructor
      · simp [data_asString]
      · rw [List.all_eq_true]
        intro c hc
        rw [data_asString] at hc
        have hc2 : c ∈ collapseRuns isWs '_' (trimChars k) := hc
        have := collapseRuns_no_p (p := isWs) (r := '_') (by decide) c hc2
        simp [this]
  · decide

/-- Claim C9, counterexample: for the all-empty entry the filename is built
from the unknown sentinels, not from a date-stamp fallback; no date-stamp
form exists in the code. -/
theorem c9_counterexample :
    fileNameFor ⟨"", "", []⟩ = "LNL UnknownAuthor Unknown Year Untitled.md"
    ∧ fileNameFor ⟨"", "", []⟩ ≠ "LNL " ++ "2026-10-11" ++ ".md" := by
  refine ⟨by decide, by decide⟩

/-- Claim C9, amended: for the all-empty entry the derived filename is
exactly the space-joined sentinels for author, year and title between the
fixed leading tag and the markdown suffix. -/
theorem c9_all_defaults_filename :
    fileNameFor ⟨"", "", []⟩
      = "LNL " ++ "UnknownAuthor" ++ " " ++ "Unknown Year" ++ " " ++ "Untitled" ++ ".md" := by
  decide

/-- Claim C10: error isolation is per source file. If within one file the
entries before some entry e all succeed (and the notes folder already
exists) and creating e's note throws because its path already exists, then
the run's trace consists of the untouched segments of the preceding files,
the failing file's segment, which contains only the effects of the entries
before e followed by the error log, with the entries after e skipped, then
the segments of the following files processed normally, and the run still
ends with the single success notice. -/
theorem c10_per_file_error_isolation
    (v : Vault) (limit : Nat) (pre post : List BibFile) (f : BibFile)
    (es1 : List Entry) (e : Entry) (es2 : List Entry)
    (v1 : Vault) (effs1 : List Eff)
    (ht : v.templateExists = true)
    (hsplit : f.entries.take limit = es1 ++ e :: es2)
    (hrun : processEntries (processFiles v limit pre).1 es1 = ⟨v1, effs1, true⟩)
    (hfold : v1.folderExists = true)
    (hdup : notePathFor e ∈ v1.notes) :
    (importBibTeX v limit (pre ++ f :: post)).2
      = Eff.readTemplate ::
        ((processFiles v limit pre).2
          ++ (Eff.readBib f.name :: (effs1 ++ [Eff.errorLog f.name]))
          ++ (processFiles v1 limit post).2
          ++ [Eff.noticeSuccess]) := by
  have hne : (pre ++ f :: post) ≠ [] := by
    intro h
    cases pre <;> simp at h
  have hfail := processEntries_fail_append es1 (processFiles v limit pre).1 v1 effs1 e es2
    hrun hfold hdup
  have hpf : processFile (processFiles v limit pre).1 limit f
      = (v1, Eff.readBib f.name :: (effs1 ++ [Eff.errorLog f.name])) := by
    simp only [processFile, hsplit, hfail]
    simp
  rw [importBibTeX_run v limit _ hne ht, processFiles_append limit (f :: post) pre v]
  simp only [processFiles, hpf, List.append_assoc]

/-- Claim C10, witness: a run over a file whose second entry collides with
the note created by its first entry, followed by a healthy file. -/
theorem c10_witness :
    (importBibTeX exVault 3 ([] ++ exFileDup :: [exFileB])).2
      = Eff.readTemplate ::
        ((processFiles exVault 3 []).2
          ++ (Eff.readBib exFileDup.name
              :: ([Eff.createNote (notePathFor eFrye)] ++ [Eff.errorLog exFileDup.name]))
          ++ (processFiles exV1 3 [exFileB]).2
          ++ [Eff.noticeSuccess]) :=
  c10_per_file_error_isolation exVault 3 [] [exFileB] exFileDup
    [eFrye] eFrye [eSmith] exV1 [Eff.createNote (notePathFor eFrye)]
    rfl (by decide) (by decide) rfl (by decide)
